import Mathlib

set_option maxRecDepth 2000

/-!
Shallow embedding of the core of the BoarBot Discord bot
(`src/main/typescript/bot/BoarBot.ts`, `src/main/typescript/util/logging/LogDebug.ts`)
together with the keyed task queue contract the bot relies on.

Pure fragments of the TypeScript are translated into executable Lean
functions; stateful fragments are translated into functions from inputs to
explicit traces of observable events (file writes, announcements, console
lines, timer constructions), so that temporal claims become statements about
positions in those traces.
-/

namespace BoarBot

/-! ## Guild-data reconciliation sweep (BoarBot.fixGuildData) -/

/-- Modelled from the spec: the per-guild data record (the `GuildData` class
itself is not under `src/`); the spec gives it a "fully set up" flag and
otherwise treats it as opaque per-guild settings, abstracted here into one
opaque field. -/
structure GuildData where
  fullySetup : Bool
  otherFields : String
deriving DecidableEq

/-- On-disk content of one per-guild file: either well-formed JSON for a
`GuildData`, or malformed bytes on which `JSON.parse` throws. -/
inductive FileContent where
  | malformed
  | valid (d : GuildData)
deriving DecidableEq

/-- One per-guild file on disk: its filename and its parsed content. -/
structure GuildFile where
  name : String
  content : FileContent
deriving DecidableEq

/-- Whether a file parses to a record whose `fullySetup` flag is true. -/
def contentSetup : FileContent → Bool
  | .malformed => false
  | .valid d => d.fullySetup

/-- The `for (const guildFile of guildDataFiles)` loop of
`BoarBot.fixGuildData`: `kept` is the list of files already scanned and left
on disk.  A file whose record has `fullySetup` is skipped (`continue`); one
whose record does not is removed (`fs.rmSync`).  `JSON.parse` of a malformed
file throws, and the loop body has no try/catch, so the exception propagates:
the malformed file and every later file stay on disk.  Returns the final disk
state and whether the sweep crashed. -/
def fixGuildDataGo (kept : List GuildFile) : List GuildFile → List GuildFile × Bool
  | [] => (kept, false)
  | f :: rest =>
    match f.content with
    | .malformed => (kept ++ f :: rest, true)
    | .valid d =>
      if d.fullySetup then fixGuildDataGo (kept ++ [f]) rest
      else fixGuildDataGo kept rest

/-- `BoarBot.fixGuildData` restricted to its per-file loop, acting on the
listing of the guild-data folder. -/
def fixGuildData (files : List GuildFile) : List GuildFile × Bool :=
  fixGuildDataGo [] files

/-! ## The fixed-interval poll tick (the setInterval callback in BoarBot.onStart) -/

/-- Observable actions of one iteration of the 120 s `setInterval` callback. -/
inductive TickEvent where
  | reloadConfig
  | logListeners
  | updateInfoPoll
  | questRegen
deriving DecidableEq

/-- The body of the `setInterval` callback in `BoarBot.onStart`:
if the stored config hash differs from a fresh `getConfigHash()`, the hash is
replaced and `loadConfig()` runs; then the listener count is logged,
`sendUpdateInfo` runs, and the quest data is regenerated when
`questsStartTimestamp + oneDay * 7 < Date.now()`.  Returns the emitted events
in program order, together with the stored hash after the tick. -/
def pollTick (storedHash newHash : String) (questsStartTimestamp oneDay now : Nat) :
    List TickEvent × String :=
  let reloadPart : List TickEvent × String :=
    if storedHash != newHash then ([TickEvent.reloadConfig], newHash) else ([], storedHash)
  (reloadPart.1 ++ [TickEvent.logListeners, TickEvent.updateInfoPoll] ++
      (if questsStartTimestamp + oneDay * 7 < now then [TickEvent.questRegen] else []),
    reloadPart.2)

/-! ## Powerup spawner boot sequence (BoarBot.onStart, powerup section) -/

/-- Modelled from the spec for the shape only: the global powerup record
(`PowerupData` is not under `src/`); `BoarBot.onStart` reads exactly its
`nextPowerup` field. -/
structure PowerupData where
  nextPowerup : Nat
deriving DecidableEq

/-- Observable actions of the powerup section of `BoarBot.onStart`. -/
inductive BootEvent where
  | queueRead (key : String) (ok : Bool)
  | handleErrorCall
  | constructSpawner (countdown : Nat)
  | startSpawning
deriving DecidableEq

/-- The queue key used by the boot-time powerup read in `BoarBot.onStart`:
the concatenation of the two string literals start and global, written in the
code as a plus of the two literals with no separator. -/
def powerupBootKey : String := "start" ++ "global"

/-- The powerup section of `BoarBot.onStart`: `timeUntilPow` starts at 0; a
queue-serialized unit of work keyed by `powerupBootKey` reads the global
powerup record inside try/catch, assigning `timeUntilPow` on success and
calling `LogDebug.handleError` on a throw; the awaited queue entry completes
before `new PowerupSpawner(timeUntilPow)` is constructed and
`startSpawning()` is called.  Returns the event trace in program order and
the countdown value the spawner was constructed with. -/
def powerupBoot (readResult : Except String PowerupData) : List BootEvent × Nat :=
  let timeUntilPow : Nat := 0
  let queuePart : List BootEvent × Nat :=
    match readResult with
    | .ok powerupData => ([BootEvent.queueRead powerupBootKey true], powerupData.nextPowerup)
    | .error _ => ([BootEvent.queueRead powerupBootKey false, BootEvent.handleErrorCall], timeUntilPow)
  (queuePart.1 ++ [BootEvent.constructSpawner queuePart.2, BootEvent.startSpawning], queuePart.2)

/-! ## Startup user-cache warm loop (end of BoarBot.onStart) -/

/-- The expression `userFile.split(...)[0]` from the code, splitting at dots:
the part of the filename before the first dot. -/
def userIdOf (file : String) : String := String.mk (file.data.takeWhile (fun c => c ≠ '.'))

/-- Observable outcome of the cache-warm loop. -/
structure WarmOutcome where
  fetched : List String
  sleeps : Nat
  logged : List String
  unhandledRejections : List String
deriving DecidableEq

/-- One iteration of the `for (const userFile of fs.readdirSync(...))` loop at
the end of `BoarBot.onStart`.  The body tries
to fetch the user by id (without awaiting) and then awaits a one second
sleep, with a catch block that logs a failed-to-find-user message through
`LogDebug.handleError`.  `users.fetch` returns a promise and is not awaited: it cannot throw
synchronously, so a failed fetch surfaces as an unhandled promise rejection
and the catch block never runs; the awaited `sleep` never throws.  Hence each
iteration records the fetch, one sleep, possibly an unhandled rejection, and
never a log entry. -/
def warmStep (fetchFails : String → Bool) (acc : WarmOutcome) (file : String) : WarmOutcome :=
  let uid := userIdOf file
  { fetched := acc.fetched ++ [uid]
    sleeps := acc.sleeps + 1
    logged := acc.logged
    unhandledRejections := acc.unhandledRejections ++ (if fetchFails uid then [uid] else []) }

/-- The whole cache-warm loop over the user-data folder listing. -/
def warmLoop (files : List String) (fetchFails : String → Bool) : WarmOutcome :=
  files.foldl (warmStep fetchFails) ⟨[], 0, [], []⟩

/-! ## GitHub update announcement (BoarBot.sendUpdateInfo) -/

/-- The global feed-cursor record; `sendUpdateInfo` reads and writes exactly
its `lastURL` field. -/
structure GitHubData where
  lastURL : String
deriving DecidableEq

/-- The first element of the pull-request listing response, with the fields
`sendUpdateInfo` reads.  `merged_at` is the only field the code null-checks. -/
structure PullReq where
  html_url : String
  merged_at : Option String
  title : String
  body : String
deriving DecidableEq

/-- Outcome of one `sendUpdateInfo` call: the feed-cursor record written to
disk (if any) and the URLs announced to the updates channel. -/
structure UpdateOutcome where
  persisted : Option GitHubData
  announcements : List String
deriving DecidableEq

/-- Embedding of `BoarBot.sendUpdateInfo`, given the stored cursor record (`undefined`
modelled as `none`), the poll response body (a list whose head plays the part
of `pullReq.data[0]`), and the resolved updates channel
(`InteractionUtils.getTextChannel` is not under `src/`; its
`TextChannel | undefined` result is passed in as an `Option`).  The guard is
`pullReqData && pullReqData.html_url !== githubData.lastURL &&
pullReqData.merged_at !== null`; inside it the record is mutated and written
first, then the embed is sent with `commitChannel?.send`. -/
def sendUpdateInfo (githubData : Option GitHubData) (response : List PullReq)
    (commitChannel : Option String) : UpdateOutcome :=
  match githubData with
  | none => ⟨none, []⟩
  | some gd =>
    match response.head? with
    | none => ⟨none, []⟩
    | some pullReqData =>
      if pullReqData.html_url != gd.lastURL && pullReqData.merged_at.isSome then
        ⟨some { lastURL := pullReqData.html_url },
          match commitChannel with
          | some _ => [pullReqData.html_url]
          | none => []⟩
      else ⟨none, []⟩

/-! ## The logging funnel (LogDebug.sendLogMessage, sendDebug, handleError) -/

/-- What one pass through the logging path produced: console lines, messages
delivered to the operational log channel, and an error propagated to the
caller, if any. -/
structure LogOutcome where
  consoleLines : List String
  channelMsgs : List String
  propagated : Option String
deriving DecidableEq

/-- The channel send call of `sendLogMessage` as a fallible operation. -/
def channelSend (sendFails : Bool) (msg : String) : Except String String :=
  if sendFails then Except.error "send failed" else Except.ok msg

/-- The `.catch(() => {})` applied to the send: a rejection is swallowed. -/
def catchSwallow (r : Except String String) : Except String (Option String) :=
  match r with
  | .error _ => Except.ok none
  | .ok m => Except.ok (some m)

/-- Embedding of `LogDebug.sendLogMessage`: always `console.log(message)`; then, when the
client is ready, resolve the log channel (`undefined` when unavailable) and,
when present, send the first 1900 characters wrapped in an ansi code block,
with any send failure swallowed by `.catch(() => {})`. -/
def sendLogMessage (isReady : Bool) (logChannel : Option String) (sendFails : Bool)
    (message : String) : LogOutcome :=
  let console := [message]
  if isReady then
    match logChannel with
    | none => ⟨console, [], none⟩
    | some _ =>
      match catchSwallow (channelSend sendFails ("```ansi\n" ++ (message.take 1900) ++ "```")) with
      | .ok (some m) => ⟨console, [m], none⟩
      | .ok none => ⟨console, [], none⟩
      | .error e => ⟨console, [], some e⟩
  else ⟨console, [], none⟩

/-- Embedding of `LogDebug.sendDebug` reduced to its control flow: return early unless
`config.debugMode`; otherwise build the complete string and run
`sendLogMessage` inside try/catch with a plain `console.log` fallback. -/
def sendDebug (debugMode : Bool) (isReady : Bool) (logChannel : Option String)
    (sendFails : Bool) (completeString : String) : LogOutcome :=
  if !debugMode then ⟨[], [], none⟩
  else
    let out := sendLogMessage isReady logChannel sendFails completeString
    match out.propagated with
    | some _ => ⟨out.consoleLines ++ [completeString], out.channelMsgs, none⟩
    | none => out

/-- Embedding of `LogDebug.handleError` reduced to its reporting path (no interaction):
build the complete string, `await sendLogMessage` inside try/catch with a
plain `console.log` fallback. -/
def handleError (isReady : Bool) (logChannel : Option String) (sendFails : Bool)
    (completeString : String) : LogOutcome :=
  let out := sendLogMessage isReady logChannel sendFails completeString
  match out.propagated with
  | some _ => ⟨out.consoleLines ++ [completeString], out.channelMsgs, none⟩
  | none => out

/-! ## SHA-256 (the crypto.createHash computation used by BoarBot.getConfigHash)

A byte-level implementation of FIPS 180-4 SHA-256 over `List Nat`
(each entry one byte), with 32-bit words as `Nat` reduced modulo `2 ^ 32`. -/

namespace SHA256

/-- Addition of two 32-bit words. -/
def add32 (a b : Nat) : Nat := (a + b) % 2 ^ 32

/-- Right rotation of a 32-bit word by `n` bits. -/
def rotr (n x : Nat) : Nat := (x / 2 ^ n + x % 2 ^ n * 2 ^ (32 - n)) % 2 ^ 32

/-- Logical right shift by `n` bits. -/
def shr (n x : Nat) : Nat := x / 2 ^ n

/-- Bitwise complement within 32 bits. -/
def not32 (x : Nat) : Nat := Nat.xor x (2 ^ 32 - 1)

/-- The capital sigma-0 word function of FIPS 180-4. -/
def bigSigma0 (x : Nat) : Nat := Nat.xor (Nat.xor (rotr 2 x) (rotr 13 x)) (rotr 22 x)

/-- The capital sigma-1 word function of FIPS 180-4. -/
def bigSigma1 (x : Nat) : Nat := Nat.xor (Nat.xor (rotr 6 x) (rotr 11 x)) (rotr 25 x)

/-- The small sigma-0 word function of FIPS 180-4. -/
def smallSigma0 (x : Nat) : Nat := Nat.xor (Nat.xor (rotr 7 x) (rotr 18 x)) (shr 3 x)

/-- The small sigma-1 word function of FIPS 180-4. -/
def smallSigma1 (x : Nat) : Nat := Nat.xor (Nat.xor (rotr 17 x) (rotr 19 x)) (shr 10 x)

/-- The choice word function of FIPS 180-4. -/
def chFn (e f g : Nat) : Nat := Nat.xor (Nat.land e f) (Nat.land (not32 e) g)

/-- The majority word function of FIPS 180-4. -/
def majFn (a b c : Nat) : Nat := Nat.xor (Nat.xor (Nat.land a b) (Nat.land a c)) (Nat.land b c)

/-- The 64 round constants of SHA-256. -/
def K : List Nat :=
  [1116352408, 1899447441, 3049323471, 3921009573,
   961987163, 1508970993, 2453635748, 2870763221,
   3624381080, 310598401, 607225278, 1426881987,
   1925078388, 2162078206, 2614888103, 3248222580,
   3835390401, 4022224774, 264347078, 604807628,
   770255983, 1249150122, 1555081692, 1996064986,
   2554220882, 2821834349, 2952996808, 3210313671,
   3336571891, 3584528711, 113926993, 338241895,
   666307205, 773529912, 1294757372, 1396182291,
   1695183700, 1986661051, 2177026350, 2456956037,
   2730485921, 2820302411, 3259730800, 3345764771,
   3516065817, 3600352804, 4094571909, 275423344,
   430227734, 506948616, 659060556, 883997877,
   958139571, 1322822218, 1537002063, 1747873779,
   1955562222, 2024104815, 2227730452, 2361852424,
   2428436474, 2756734187, 3204031479, 3329325298]

/-- A SHA-256 working state or digest: eight 32-bit words. -/
structure Hash8 where
  w0 : Nat
  w1 : Nat
  w2 : Nat
  w3 : Nat
  w4 : Nat
  w5 : Nat
  w6 : Nat
  w7 : Nat
deriving DecidableEq

/-- The initial hash value of SHA-256. -/
def initH : Hash8 :=
  ⟨1779033703, 3144134277, 1013904242, 2773480762, 1359893119, 2600822924, 528734635, 1541459225⟩

/-- Big-endian encoding of `n` into `k` bytes. -/
def toBytesBE (k n : Nat) : List Nat :=
  (List.range k).map (fun i => n / 2 ^ (8 * (k - 1 - i)) % 256)

/-- SHA-256 padding: a 0x80 byte, zeros to 56 mod 64, then the bit length in
8 big-endian bytes. -/
def padMessage (msg : List Nat) : List Nat :=
  let L := msg.length
  let z := (56 + 64 - (L + 1) % 64) % 64
  msg ++ [0x80] ++ List.replicate z 0 ++ toBytesBE 8 (L * 8 % 2 ^ 64)

/-- Group bytes four at a time into big-endian 32-bit words. -/
def bytesToWords : List Nat → List Nat
  | a :: b :: c :: d :: rest => (((a * 256 + b) * 256 + c) * 256 + d) :: bytesToWords rest
  | _ => []

/-- Fuelled splitting of the padded message into 64-byte blocks. -/
def blocksGo : Nat → List Nat → List (List Nat)
  | 0, _ => []
  | _, [] => []
  | fuel + 1, l => l.take 64 :: blocksGo fuel (l.drop 64)

/-- Split the padded message into 64-byte blocks. -/
def blocks (l : List Nat) : List (List Nat) := blocksGo l.length l

/-- Extend the message schedule by one word; `acc` holds the schedule so far,
newest word first. -/
def stepW (acc : List Nat) : List Nat :=
  add32 (add32 (smallSigma1 (acc.getD 1 0)) (acc.getD 6 0))
      (add32 (smallSigma0 (acc.getD 14 0)) (acc.getD 15 0)) :: acc

/-- Iterate `stepW`, then return the schedule oldest word first. -/
def buildW : Nat → List Nat → List Nat
  | 0, acc => acc.reverse
  | n + 1, acc => buildW n (stepW acc)

/-- One SHA-256 compression round, consuming one constant and one schedule
word. -/
def roundStep (st : Hash8) (kw : Nat × Nat) : Hash8 :=
  let t1 := add32 (add32 (add32 st.w7 (bigSigma1 st.w4)) (chFn st.w4 st.w5 st.w6))
      (add32 kw.1 kw.2)
  let t2 := add32 (bigSigma0 st.w0) (majFn st.w0 st.w1 st.w2)
  ⟨add32 t1 t2, st.w0, st.w1, st.w2, add32 st.w3 t1, st.w4, st.w5, st.w6⟩

/-- Compress one 64-byte block into the running hash value. -/
def compressBlock (h : Hash8) (block : List Nat) : Hash8 :=
  let ws := buildW 48 (bytesToWords block).reverse
  let st := (K.zip ws).foldl roundStep h
  ⟨add32 h.w0 st.w0, add32 h.w1 st.w1, add32 h.w2 st.w2, add32 h.w3 st.w3,
   add32 h.w4 st.w4, add32 h.w5 st.w5, add32 h.w6 st.w6, add32 h.w7 st.w7⟩

/-- The SHA-256 digest of a byte sequence, as eight 32-bit words. -/
def sha256words (msg : List Nat) : Hash8 :=
  (blocks (padMessage msg)).foldl compressBlock initH

/-- The digest as 32 big-endian bytes. -/
def digestBytes (h : Hash8) : List Nat :=
  toBytesBE 4 h.w0 ++ toBytesBE 4 h.w1 ++ toBytesBE 4 h.w2 ++ toBytesBE 4 h.w3 ++
  toBytesBE 4 h.w4 ++ toBytesBE 4 h.w5 ++ toBytesBE 4 h.w6 ++ toBytesBE 4 h.w7

/-- The lowercase hexadecimal digit characters, in value order. -/
def hexAlphabet : List Char := "0123456789abcdef".data

/-- The lowercase hex digit for a value below 16. -/
def hexDigitChar (n : Nat) : Char := hexAlphabet.getD n '0'

/-- Two lowercase hex digits for one byte. -/
def byteToHex (b : Nat) : List Char := [hexDigitChar (b / 16), hexDigitChar (b % 16)]

/-- The lowercase hex digest string, as produced by digest applied to hex in
the Node crypto API. -/
def sha256hex (msg : List Nat) : String :=
  String.mk ((digestBytes (sha256words msg)).flatMap byteToHex)

/-- All eight words of a state are 32-bit words. -/
abbrev Bounded (h : Hash8) : Prop :=
  h.w0 < 2 ^ 32 ∧ h.w1 < 2 ^ 32 ∧ h.w2 < 2 ^ 32 ∧ h.w3 < 2 ^ 32 ∧
  h.w4 < 2 ^ 32 ∧ h.w5 < 2 ^ 32 ∧ h.w6 < 2 ^ 32 ∧ h.w7 < 2 ^ 32

/-- The digest read as one number below `2 ^ 256` (base `2 ^ 32`, big end
first). -/
def digestToNat (h : Hash8) : Nat :=
  ((((((h.w0 * 2 ^ 32 + h.w1) * 2 ^ 32 + h.w2) * 2 ^ 32 + h.w3) * 2 ^ 32 + h.w4) * 2 ^ 32 +
        h.w5) * 2 ^ 32 + h.w6) * 2 ^ 32 + h.w7

/-- Little-endian encoding of `n` into `k` bytes, used to build pairwise
distinct byte sequences. -/
def natToBytesLE : Nat → Nat → List Nat
  | 0, _ => []
  | k + 1, n => n % 256 :: natToBytesLE k (n / 256)

end SHA256

/-- `BoarBot.getConfigHash`: read the raw bytes of the configuration file and
return the SHA-256 digest in hex form, exactly the digest applied to hex of
the Node crypto API.  The file contents are passed in as the byte list
`fs.readFileSync` produced. -/
def getConfigHash (configFile : List Nat) : String := SHA256.sha256hex configFile

/-! ## The keyed task queue (Queue.ts)

Modelled from the spec: the file `util/interactions/Queue.ts` is not under
`src/` (only its caller in `BoarBot.onStart` is), so the queue is embedded
from the contract in the spec: a map from key to the pending chain for that
key; newly enqueued work for a key begins only after the existing chain for
that key settles, and work begins immediately when its key has no chain.

The embedding is a small-step scheduler over an enqueue list: task `i` has
key `keys[i]` (submission order = index order).  A trace is a list of start
and finish events; an event is enabled exactly when the chaining mechanism of
the spec would let it run: a task may start only if it has not started and
the nearest earlier task with the same key (its predecessor in the chain) has
settled, and may finish only while running.  Cross-key interleaving is
unconstrained, matching the cooperative single-process model of the spec. -/

namespace Queue

/-- One scheduling event: unit of work `i` begins, or settles. -/
inductive QEvent where
  | start (i : Nat)
  | finish (i : Nat)
deriving DecidableEq

/-- The key of unit of work `i` in the enqueue list. -/
def keyOf (keys : List String) (i : Nat) : String := keys.getD i ""

/-- Modelled from the spec: scan downward from `m` for the nearest earlier
unit of work sharing the key of unit `k` — the chain predecessor that an
enqueue for that key is scheduled behind. -/
def prevGo (keys : List String) (k : Nat) : Nat → Option Nat
  | 0 => none
  | j + 1 => if keyOf keys j == keyOf keys k then some j else prevGo keys k j

/-- The chain predecessor of unit `k`: the largest `j < k` with the same key,
if any. -/
def prevSameKey (keys : List String) (k : Nat) : Option Nat := prevGo keys k k

/-- Unit `i` has begun somewhere in the trace. -/
abbrev started (tr : List QEvent) (i : Nat) : Prop := QEvent.start i ∈ tr

/-- Unit `i` has settled somewhere in the trace. -/
abbrev finished (tr : List QEvent) (i : Nat) : Prop := QEvent.finish i ∈ tr

/-- Unit `i` is running at the end of the trace. -/
def runningIn (tr : List QEvent) (i : Nat) : Prop :=
  QEvent.start i ∈ tr ∧ QEvent.finish i ∉ tr

/-- Modelled from the spec: whether the chaining mechanism permits an event
after the history `done`.  A start is permitted for an enqueued, not yet
started unit whose chain predecessor (if any) has settled; work begins
immediately when the key has no pending chain.  A finish is permitted for a
running unit. -/
def enabled (keys : List String) (done : List QEvent) : QEvent → Bool
  | .start i =>
    decide (i < keys.length) && !(decide (started done i)) &&
      (match prevSameKey keys i with
       | none => true
       | some j => decide (finished done j))
  | .finish i => decide (started done i) && !(decide (finished done i))

/-- A trace each of whose events was permitted when it happened, given the
history `done` before the trace. -/
def validGo (keys : List String) (done : List QEvent) : List QEvent → Bool
  | [] => true
  | e :: rest => enabled keys done e && validGo keys (done ++ [e]) rest

/-- A complete or partial execution the queue can produce for the enqueue
list `keys`. -/
def validTrace (keys : List String) (tr : List QEvent) : Bool := validGo keys [] tr

/-- Serial execution of the units listed in `order`: each unit starts and
settles before the next begins. -/
def serialize : List Nat → List QEvent
  | [] => []
  | k :: rest => QEvent.start k :: QEvent.finish k :: serialize rest

/-- All units enqueued up to and including unit `b` that share the key of
unit `b` — the whole chain unit `b` waits behind, in submission order. -/
def chainUpTo (keys : List String) (b : Nat) : List Nat :=
  (List.range (b + 1)).filter (fun m => keyOf keys m == keyOf keys b)

end Queue

/-! # Theorems -/

theorem fixGuildDataGo_all_valid (files : List GuildFile) :
    ∀ kept : List GuildFile, (∀ f ∈ files, f.content ≠ FileContent.malformed) →
    fixGuildDataGo kept files =
      (kept ++ files.filter (fun f => contentSetup f.content), false) := by
  induction files with
  | nil => intro kept _; simp [fixGuildDataGo]
  | cons f rest ih =>
    intro kept hvalid
    have hf : f.content ≠ FileContent.malformed := hvalid f (by simp)
    have hrest : ∀ g ∈ rest, g.content ≠ FileContent.malformed := by
      intro g hg; exact hvalid g (by simp [hg])
    cases hc : f.content with
    | malformed => exact absurd hc hf
    | valid d =>
      by_cases hd : d.fullySetup
      · rw [fixGuildDataGo, hc]
        simp only [hd, if_true]
        rw [ih (kept ++ [f]) hrest]
        simp [List.filter, hc, contentSetup, hd]
      · rw [fixGuildDataGo, hc]
        simp only [hd, if_false]
        rw [ih kept hrest]
        simp [List.filter, hc, contentSetup, hd]


theorem fixGuildDataGo_malformed (post : List GuildFile) (bad : GuildFile)
    (hbad : bad.content = FileContent.malformed) :
    ∀ (pre kept : List GuildFile), (∀ f ∈ pre, f.content ≠ FileContent.malformed) →
    fixGuildDataGo kept (pre ++ bad :: post) =
      (kept ++ pre.filter (fun f => contentSetup f.content) ++ bad :: post, true) := by
  intro pre
  induction pre with
  | nil =>
    intro kept _
    simp only [List.nil_append, List.filter_nil, List.append_nil]
    rw [fixGuildDataGo, hbad]
  | cons f rest ih =>
    intro kept hvalid
    have hf : f.content ≠ FileContent.malformed := hvalid f (by simp)
    have hrest : ∀ g ∈ rest, g.content ≠ FileContent.malformed := by
      intro g hg; exact hvalid g (by simp [hg])
    cases hc : f.content with
    | malformed => exact absurd hc hf
    | valid d =>
      by_cases hd : d.fullySetup
      · rw [List.cons_append, fixGuildDataGo, hc]
        simp only [hd, if_true]
        rw [ih (kept ++ [f]) hrest]
        simp [List.filter, hc, contentSetup, hd]
      · rw [List.cons_append, fixGuildDataGo, hc]
        simp only [hd, if_false]
        rw [ih kept hrest]
        simp [List.filter, hc, contentSetup, hd]

/-- C3: for every set of well-formed on-disk per-guild records, after
`fixGuildData` exactly those records whose `fullySetup` flag is true remain
on disk, unchanged, and every record whose flag is false has been deleted. -/
theorem guildSweep_keeps_exactly_fullySetup (files : List GuildFile)
    (hvalid : ∀ f ∈ files, f.content ≠ FileContent.malformed) :
    fixGuildData files = (files.filter (fun f => contentSetup f.content), false) ∧
    (∀ f : GuildFile, f ∈ (fixGuildData files).1 ↔ f ∈ files ∧ contentSetup f.content = true) := by
  have h := fixGuildDataGo_all_valid files [] hvalid
  rw [fixGuildData]
  simp only [List.nil_append] at h
  refine ⟨h, ?_⟩
  intro f
  rw [h]
  simp [List.mem_filter]

/-- C3 witness: given records A with the flag false and B with it true, after
the sweep only B remains, unchanged, without a crash. -/
theorem guildSweep_keeps_exactly_fullySetup_witness :
    fixGuildData
        [GuildFile.mk "A" (FileContent.valid (GuildData.mk false "a")),
         GuildFile.mk "B" (FileContent.valid (GuildData.mk true "b"))] =
      ([GuildFile.mk "B" (FileContent.valid (GuildData.mk true "b"))], false) := by
  have h := (guildSweep_keeps_exactly_fullySetup
      [GuildFile.mk "A" (FileContent.valid (GuildData.mk false "a")),
       GuildFile.mk "B" (FileContent.valid (GuildData.mk true "b"))] (by decide)).1
  exact h.trans (by decide)

/-- C7 counterexample: with on-disk records A (malformed) followed by B with
`fullySetup` false, the sweep crashes on A and B is left on disk even though
its own flag says it should be deleted — a sibling of the malformed file is
not processed according to its own flag. -/
theorem guildSweep_malformed_counterexample :
    fixGuildData [GuildFile.mk "A" FileContent.malformed,
        GuildFile.mk "B" (FileContent.valid (GuildData.mk false "b"))] =
      ([GuildFile.mk "A" FileContent.malformed,
        GuildFile.mk "B" (FileContent.valid (GuildData.mk false "b"))], true) ∧
    GuildFile.mk "B" (FileContent.valid (GuildData.mk false "b")) ∈
      (fixGuildData [GuildFile.mk "A" FileContent.malformed,
        GuildFile.mk "B" (FileContent.valid (GuildData.mk false "b"))]).1 ∧
    contentSetup (FileContent.valid (GuildData.mk false "b")) = false := by decide

/-- C7 amended: a malformed per-guild file makes the sweep throw at that
file: records before it are processed according to their own `fullySetup`
flag (kept if true, deleted if false), while the malformed file and every
record after it are left untouched on disk. -/
theorem guildSweep_malformed_aborts (pre post : List GuildFile) (bad : GuildFile)
    (hpre : ∀ f ∈ pre, f.content ≠ FileContent.malformed)
    (hbad : bad.content = FileContent.malformed) :
    fixGuildData (pre ++ bad :: post) =
      (pre.filter (fun f => contentSetup f.content) ++ bad :: post, true) := by
  have h := fixGuildDataGo_malformed post bad hbad pre [] hpre
  simpa [fixGuildData] using h

/-- C7 witness: a kept record before the malformed file, the malformed file
itself, and an unprocessed record after it. -/
theorem guildSweep_malformed_aborts_witness :
    fixGuildData [GuildFile.mk "G" (FileContent.valid (GuildData.mk true "g")),
        GuildFile.mk "A" FileContent.malformed,
        GuildFile.mk "B" (FileContent.valid (GuildData.mk false "b"))] =
      ([GuildFile.mk "G" (FileContent.valid (GuildData.mk true "g")),
        GuildFile.mk "A" FileContent.malformed,
        GuildFile.mk "B" (FileContent.valid (GuildData.mk false "b"))], true) := by
  have h := guildSweep_malformed_aborts
      [GuildFile.mk "G" (FileContent.valid (GuildData.mk true "g"))]
      [GuildFile.mk "B" (FileContent.valid (GuildData.mk false "b"))]
      (GuildFile.mk "A" FileContent.malformed) (by decide) (by decide)
  exact h.trans (by decide)

/-- C5 counterexample: with the quest window starting at 0, a day of
86400000 ms and the current time exactly at the end of the window, the claim
says the window has expired (now is at least start plus 7 days) and must be
regenerated, but the tick emits no regeneration: the code uses a strict
comparison. -/
theorem questRegen_boundary_counterexample :
    0 + 86400000 * 7 ≤ 604800000 ∧
    TickEvent.questRegen ∉ (pollTick "h" "h" 0 86400000 604800000).1 := by decide

/-- C5 amended: on every poll tick the quest data is regenerated exactly when
the current time is strictly greater than the stored start timestamp plus
7 days, and not otherwise. -/
theorem questRegen_iff_strictly_past (sh nh : String) (ts oneDay now : Nat) :
    TickEvent.questRegen ∈ (pollTick sh nh ts oneDay now).1 ↔ ts + oneDay * 7 < now := by
  unfold pollTick
  by_cases hq : ts + oneDay * 7 < now <;> by_cases hh : sh != nh <;> simp [hq, hh]

/-- C5 amended, witness: one tick strictly past the window end regenerates. -/
theorem questRegen_iff_strictly_past_witness :
    TickEvent.questRegen ∈ (pollTick "a" "a" 0 1 8).1 :=
  (questRegen_iff_strictly_past "a" "a" 0 1 8).mpr (by decide)

/-- C6: when the queue-serialized boot read under the composite key
startglobal succeeds with a powerup record holding nextPowerup 5000, the
spawner is constructed with countdown 5000, and the read precedes the
construction and start in the trace. -/
theorem powerupBoot_initial_countdown (r : Except String PowerupData) (pd : PowerupData)
    (hr : r = Except.ok pd) (h5 : pd.nextPowerup = 5000) :
    powerupBootKey = "startglobal" ∧
    powerupBoot r =
      ([BootEvent.queueRead "startglobal" true, BootEvent.constructSpawner 5000,
        BootEvent.startSpawning], 5000) ∧
    (powerupBoot r).1.indexOf (BootEvent.queueRead "startglobal" true) <
      (powerupBoot r).1.indexOf (BootEvent.constructSpawner 5000) := by
  subst hr
  have hk : powerupBootKey = "startglobal" := by decide
  have h2 : powerupBoot (Except.ok pd) =
      ([BootEvent.queueRead "startglobal" true, BootEvent.constructSpawner 5000,
        BootEvent.startSpawning], 5000) := by
    simp [powerupBoot, hk, h5]
  exact ⟨hk, h2, by rw [h2]; decide⟩

/-- C6 witness: the concrete boot read of a record with nextPowerup 5000. -/
theorem powerupBoot_initial_countdown_witness :
    powerupBoot (Except.ok (PowerupData.mk 5000)) =
      ([BootEvent.queueRead "startglobal" true, BootEvent.constructSpawner 5000,
        BootEvent.startSpawning], 5000) :=
  (powerupBoot_initial_countdown (Except.ok (PowerupData.mk 5000)) (PowerupData.mk 5000)
    rfl rfl).2.1

/-- C10: when the queue-serialized boot read throws, the error goes to
`LogDebug.handleError`, `timeUntilPow` keeps its initialization value 0, and
the spawner is still constructed with countdown 0 and started. -/
theorem powerupBoot_error_continues (r : Except String PowerupData) (e : String)
    (hr : r = Except.error e) :
    powerupBoot r =
      ([BootEvent.queueRead powerupBootKey false, BootEvent.handleErrorCall,
        BootEvent.constructSpawner 0, BootEvent.startSpawning], 0) ∧
    BootEvent.handleErrorCall ∈ (powerupBoot r).1 ∧
    (powerupBoot r).2 = 0 ∧
    (powerupBoot r).1.indexOf BootEvent.handleErrorCall <
      (powerupBoot r).1.indexOf (BootEvent.constructSpawner 0) := by
  subst hr
  have h2 : powerupBoot (Except.error e : Except String PowerupData) =
      ([BootEvent.queueRead powerupBootKey false, BootEvent.handleErrorCall,
        BootEvent.constructSpawner 0, BootEvent.startSpawning], 0) := by
    simp [powerupBoot]
  exact ⟨h2, by rw [h2]; decide, by rw [h2], by rw [h2]; decide⟩

/-- C10 witness: a concrete failing boot read. -/
theorem powerupBoot_error_continues_witness :
    powerupBoot (Except.error "read threw" : Except String PowerupData) =
      ([BootEvent.queueRead powerupBootKey false, BootEvent.handleErrorCall,
        BootEvent.constructSpawner 0, BootEvent.startSpawning], 0) :=
  (powerupBoot_error_continues (Except.error "read threw") "read threw" rfl).1

theorem warmLoop_go (ff : String → Bool) :
    ∀ (files : List String) (acc : WarmOutcome),
    List.foldl (warmStep ff) acc files =
      WarmOutcome.mk (acc.fetched ++ files.map userIdOf) (acc.sleeps + files.length)
        acc.logged (acc.unhandledRejections ++ (files.map userIdOf).filter ff) := by
  intro files
  induction files with
  | nil => intro acc; simp
  | cons f rest ih =>
    intro acc
    simp only [List.foldl_cons, List.map_cons, List.length_cons]
    rw [ih]
    by_cases hf : ff (userIdOf f) <;>
      simp [warmStep, List.filter_cons, hf, List.append_assoc] <;> omega

/-- C8: the cache-warm loop iterates over every file and sleeps once per
file regardless of fetch failures, but, because the fetch promise is not
awaited, a failed fetch is never caught, so nothing is ever logged and the
failure escapes as an unhandled rejection; in particular for the single file
named 123.json whose fetch fails, the log stays empty. -/
theorem warmLoop_failures_never_logged :
    (∀ (files : List String) (ff : String → Bool),
        warmLoop files ff =
          WarmOutcome.mk (files.map userIdOf) files.length []
            ((files.map userIdOf).filter ff)) ∧
    warmLoop ["123.json"] (fun _ => true) = WarmOutcome.mk ["123"] 1 [] ["123"] := by
  constructor
  · intro files ff
    have h := warmLoop_go ff files (WarmOutcome.mk [] 0 [] [])
    simpa [warmLoop] using h
  · decide

/-- C4: with a present cursor record and a resolvable updates channel, the
poller announces and persists exactly when the first response item is new
(url differs from the stored lastURL) and merged (merged time not null);
then exactly one announcement is sent and the cursor is persisted with the
new url. -/
theorem sendUpdateInfo_announce_iff (gd : GitHubData) (resp : List PullReq) (ch : String) :
    (∀ p : PullReq, resp.head? = some p → p.html_url = gd.lastURL →
        sendUpdateInfo (some gd) resp (some ch) = UpdateOutcome.mk none []) ∧
    (∀ p : PullReq, resp.head? = some p → p.html_url ≠ gd.lastURL → p.merged_at ≠ none →
        sendUpdateInfo (some gd) resp (some ch) =
          UpdateOutcome.mk (some (GitHubData.mk p.html_url)) [p.html_url]) ∧
    (((sendUpdateInfo (some gd) resp (some ch)).announcements.length = 1 ∧
        (sendUpdateInfo (some gd) resp (some ch)).persisted.isSome = true) ↔
      ∃ p : PullReq, resp.head? = some p ∧ p.html_url ≠ gd.lastURL ∧ p.merged_at ≠ none) := by
  refine ⟨?_, ?_, ?_⟩
  · intro p hp heq
    simp [sendUpdateInfo, hp, heq]
  · intro p hp hne hm
    have h1 : (p.html_url != gd.lastURL) = true := by simp [hne]
    have h2 : p.merged_at.isSome = true := Option.ne_none_iff_isSome.mp hm
    simp [sendUpdateInfo, hp, h1, h2]
  · cases hh : resp.head? with
    | none => simp [sendUpdateInfo, hh]
    | some p =>
      by_cases hne : p.html_url = gd.lastURL
      · simp [sendUpdateInfo, hh, hne]
      · cases hm : p.merged_at with
        | none => simp [sendUpdateInfo, hh, hne, hm]
        | some t =>
          have h1 : (p.html_url != gd.lastURL) = true := by simp [hne]
          simp [sendUpdateInfo, hh, h1, hm, hne]

/-- C4 witness: stored lastURL X; a response headed by a merged item with url
Y triggers exactly one announcement and persists lastURL Y. -/
theorem sendUpdateInfo_announce_iff_witness :
    sendUpdateInfo (some (GitHubData.mk "X")) [PullReq.mk "Y" (some "t") "T" "B"]
        (some "chan") =
      UpdateOutcome.mk (some (GitHubData.mk "Y")) ["Y"] :=
  (sendUpdateInfo_announce_iff (GitHubData.mk "X") [PullReq.mk "Y" (some "t") "T" "B"]
      "chan").2.1 (PullReq.mk "Y" (some "t") "T" "B") rfl (by decide) (by decide)

/-- C9: every message entering the reporting path is printed to the console,
and whatever the readiness of the client, the availability of the log
channel, or the success of the channel send, no error is propagated to the
caller: a failed mirror is swallowed and the console line remains. -/
theorem logFunnel_console_always_channel_best_effort (ready : Bool) (ch : Option String)
    (sendFails : Bool) (msg : String) :
    ((sendLogMessage ready ch sendFails msg).consoleLines = [msg] ∧
      (sendLogMessage ready ch sendFails msg).propagated = none) ∧
    ((handleError ready ch sendFails msg).consoleLines = [msg] ∧
      (handleError ready ch sendFails msg).propagated = none) ∧
    ((sendDebug true ready ch sendFails msg).consoleLines = [msg] ∧
      (sendDebug true ready ch sendFails msg).propagated = none) := by
  have h : (sendLogMessage ready ch sendFails msg).consoleLines = [msg] ∧
      (sendLogMessage ready ch sendFails msg).propagated = none := by
    cases ready <;> rcases ch with _ | c <;> cases sendFails <;>
      simp [sendLogMessage, channelSend, catchSwallow]
  refine ⟨h, ?_, ?_⟩
  · constructor <;> simp [handleError, h.1, h.2]
  · constructor <;> simp [sendDebug, h.1, h.2]

/-- C9 witness: a ready client with an available channel and a failing send
still yields the console line and no propagated error. -/
theorem logFunnel_console_always_channel_best_effort_witness :
    (sendLogMessage true (some "log") true "m").consoleLines = ["m"] ∧
    (sendLogMessage true (some "log") true "m").propagated = none :=
  (logFunnel_console_always_channel_best_effort true (some "log") true "m").1

namespace SHA256

theorem add32_lt (a b : Nat) : add32 a b < 2 ^ 32 := Nat.mod_lt _ (by norm_num)

theorem bounded_compressBlock (h : Hash8) (bl : List Nat) : Bounded (compressBlock h bl) := by
  unfold compressBlock Bounded
  exact ⟨add32_lt _ _, add32_lt _ _, add32_lt _ _, add32_lt _ _,
    add32_lt _ _, add32_lt _ _, add32_lt _ _, add32_lt _ _⟩

theorem bounded_initH : Bounded initH := by decide

theorem bounded_foldl (l : List (List Nat)) :
    ∀ h : Hash8, Bounded h → Bounded (l.foldl compressBlock h) := by
  induction l with
  | nil => intro h hb; simpa using hb
  | cons b rest ih =>
    intro h hb
    simpa using ih (compressBlock h b) (bounded_compressBlock h b)

theorem bounded_sha256words (msg : List Nat) : Bounded (sha256words msg) :=
  bounded_foldl _ initH bounded_initH

theorem mulAddLtPow {a b : Nat} (k : Nat) (ha : a < 2 ^ k) (hb : b < 2 ^ 32) :
    a * 2 ^ 32 + b < 2 ^ (k + 32) := by
  have h2 : a * 2 ^ 32 + 2 ^ 32 = (a + 1) * 2 ^ 32 := by ring
  have h3 : (a + 1) * 2 ^ 32 ≤ 2 ^ k * 2 ^ 32 := Nat.mul_le_mul_right _ ha
  have h4 : 2 ^ k * 2 ^ 32 = 2 ^ (k + 32) := (pow_add 2 k 32).symm
  omega

theorem digestToNat_lt (h : Hash8) (hb : Bounded h) : digestToNat h < 2 ^ 256 := by
  obtain ⟨b0, b1, b2, b3, b4, b5, b6, b7⟩ := hb
  have h01 : h.w0 * 2 ^ 32 + h.w1 < 2 ^ 64 := mulAddLtPow 32 b0 b1
  have h02 : (h.w0 * 2 ^ 32 + h.w1) * 2 ^ 32 + h.w2 < 2 ^ 96 := mulAddLtPow 64 h01 b2
  have h03 : ((h.w0 * 2 ^ 32 + h.w1) * 2 ^ 32 + h.w2) * 2 ^ 32 + h.w3 < 2 ^ 128 :=
    mulAddLtPow 96 h02 b3
  have h04 : (((h.w0 * 2 ^ 32 + h.w1) * 2 ^ 32 + h.w2) * 2 ^ 32 + h.w3) * 2 ^ 32 + h.w4 <
      2 ^ 160 := mulAddLtPow 128 h03 b4
  have h05 : ((((h.w0 * 2 ^ 32 + h.w1) * 2 ^ 32 + h.w2) * 2 ^ 32 + h.w3) * 2 ^ 32 + h.w4) *
      2 ^ 32 + h.w5 < 2 ^ 192 := mulAddLtPow 160 h04 b5
  have h06 : (((((h.w0 * 2 ^ 32 + h.w1) * 2 ^ 32 + h.w2) * 2 ^ 32 + h.w3) * 2 ^ 32 + h.w4) *
      2 ^ 32 + h.w5) * 2 ^ 32 + h.w6 < 2 ^ 224 := mulAddLtPow 192 h05 b6
  exact mulAddLtPow 224 h06 b7

theorem mulAdd_inj {a b c d B : Nat} (hb : b < B) (hd : d < B) (h : a * B + b = c * B + d) :
    a = c ∧ b = d := by
  have hB : 0 < B := lt_of_le_of_lt (Nat.zero_le b) hb
  have h1 : (a * B + b) / B = a := by
    rw [Nat.mul_comm, Nat.mul_add_div hB, Nat.div_eq_of_lt hb, Nat.add_zero]
  have h2 : (c * B + d) / B = c := by
    rw [Nat.mul_comm, Nat.mul_add_div hB, Nat.div_eq_of_lt hd, Nat.add_zero]
  have hac : a = c := by rw [← h1, ← h2, h]
  subst hac
  exact ⟨rfl, by omega⟩

theorem digestToNat_inj {g1 g2 : Hash8} (hb1 : Bounded g1) (hb2 : Bounded g2)
    (he : digestToNat g1 = digestToNat g2) : g1 = g2 := by
  cases g1 with
  | mk a0 a1 a2 a3 a4 a5 a6 a7 =>
  cases g2 with
  | mk c0 c1 c2 c3 c4 c5 c6 c7 =>
  obtain ⟨b0, b1, b2, b3, b4, b5, b6, b7⟩ := hb1
  obtain ⟨e0, e1, e2, e3, e4, e5, e6, e7⟩ := hb2
  unfold digestToNat at he
  dsimp only at he b0 b1 b2 b3 b4 b5 b6 b7 e0 e1 e2 e3 e4 e5 e6 e7
  obtain ⟨he6, heq7⟩ := mulAdd_inj b7 e7 he
  obtain ⟨he5, heq6⟩ := mulAdd_inj b6 e6 he6
  obtain ⟨he4, heq5⟩ := mulAdd_inj b5 e5 he5
  obtain ⟨he3, heq4⟩ := mulAdd_inj b4 e4 he4
  obtain ⟨he2, heq3⟩ := mulAdd_inj b3 e3 he3
  obtain ⟨he1, heq2⟩ := mulAdd_inj b2 e2 he2
  obtain ⟨heq0, heq1⟩ := mulAdd_inj b1 e1 he1
  subst heq0; subst heq1; subst heq2; subst heq3
  subst heq4; subst heq5; subst heq6; subst heq7
  rfl

theorem natToBytesLE_lt : ∀ k n : Nat, ∀ x ∈ natToBytesLE k n, x < 256 := by
  intro k
  induction k with
  | zero => intro n x hx; simp [natToBytesLE] at hx
  | succ k ih =>
    intro n x hx
    rw [natToBytesLE] at hx
    rcases List.mem_cons.mp hx with h | h
    · exact h ▸ Nat.mod_lt _ (by norm_num)
    · exact ih (n / 256) x h

theorem natToBytesLE_inj : ∀ k n m : Nat, n < 256 ^ k → m < 256 ^ k →
    natToBytesLE k n = natToBytesLE k m → n = m := by
  intro k
  induction k with
  | zero => intro n m hn hm _; simp [pow_zero] at hn hm; omega
  | succ k ih =>
    intro n m hn hm he
    rw [natToBytesLE, natToBytesLE] at he
    simp only [List.cons.injEq] at he
    have hn2 : n / 256 < 256 ^ k := by
      rw [Nat.div_lt_iff_lt_mul (by norm_num : (0 : Nat) < 256)]
      calc n < 256 ^ (k + 1) := hn
        _ = 256 ^ k * 256 := by rw [pow_succ]
    have hm2 : m / 256 < 256 ^ k := by
      rw [Nat.div_lt_iff_lt_mul (by norm_num : (0 : Nat) < 256)]
      calc m < 256 ^ (k + 1) := hm
        _ = 256 ^ k * 256 := by rw [pow_succ]
    have hq := ih (n / 256) (m / 256) hn2 hm2 he.2
    have hdm := Nat.div_add_mod n 256
    have hdm2 := Nat.div_add_mod m 256
    omega

theorem hexDigitChar_mem (n : Nat) : hexDigitChar n ∈ hexAlphabet := by
  by_cases h : n < 16
  · interval_cases n <;> decide
  · unfold hexDigitChar
    rw [List.getD_eq_default]
    · decide
    · have h16 : hexAlphabet.length = 16 := rfl
      omega

theorem length_flatMap_byteToHex (l : List Nat) : (l.flatMap byteToHex).length = 2 * l.length := by
  induction l with
  | nil => simp
  | cons b rest ih =>
    rw [List.flatMap_cons, List.length_append, ih, List.length_cons]
    have h2 : (byteToHex b).length = 2 := rfl
    omega

theorem digestBytes_length (h : Hash8) : (digestBytes h).length = 32 := by
  simp [digestBytes, toBytesBE]

theorem sha256hex_length (msg : List Nat) : (sha256hex msg).length = 64 := by
  show ((digestBytes (sha256words msg)).flatMap byteToHex).length = 64
  rw [length_flatMap_byteToHex, digestBytes_length]

theorem sha256hex_chars (msg : List Nat) : ∀ c ∈ (sha256hex msg).data, c ∈ hexAlphabet := by
  intro c hc
  change c ∈ (digestBytes (sha256words msg)).flatMap byteToHex at hc
  rcases List.mem_flatMap.mp hc with ⟨b, _, hb⟩
  simp only [byteToHex, List.mem_cons, List.not_mem_nil, or_false] at hb
  rcases hb with h | h
  · exact h ▸ hexDigitChar_mem _
  · exact h ▸ hexDigitChar_mem _

end SHA256

/-- C2 counterexample: the claim that any two distinct byte contents have
distinct fingerprints is the injectivity of SHA-256 on arbitrary byte
sequences, which fails by counting: there are more 33-byte contents than
256-bit digests, so two distinct valid byte sequences share one
`getConfigHash` value. -/
theorem getConfigHash_not_injective :
    ¬ (∀ b1 b2 : List Nat, (∀ x ∈ b1, x < 256) → (∀ x ∈ b2, x < 256) → b1 ≠ b2 →
        getConfigHash b1 ≠ getConfigHash b2) := by
  intro hclaim
  have hcard : Fintype.card (Fin (2 ^ 256)) < Fintype.card (Fin (2 ^ 256 + 1)) := by
    rw [Fintype.card_fin, Fintype.card_fin]
    exact Nat.lt_succ_self _
  obtain ⟨i, j, hij, hfeq⟩ := Fintype.exists_ne_map_eq_of_card_lt
    (fun i : Fin (2 ^ 256 + 1) =>
      (⟨SHA256.digestToNat (SHA256.sha256words (SHA256.natToBytesLE 33 i.val)),
        SHA256.digestToNat_lt _ (SHA256.bounded_sha256words _)⟩ : Fin (2 ^ 256))) hcard
  have hpow : (2 : Nat) ^ 256 + 1 ≤ 256 ^ 33 := by
    have h1 : (256 : Nat) ^ 33 = 2 ^ 264 := by norm_num
    have hone : (1 : Nat) ≤ 2 ^ 256 := Nat.one_le_two_pow
    have h257 : (2 : Nat) ^ 257 = 2 ^ 256 + 2 ^ 256 := by rw [pow_succ]; ring
    have h3 : (2 : Nat) ^ 257 ≤ 2 ^ 264 := Nat.pow_le_pow_right (by norm_num) (by norm_num)
    omega
  have hne : SHA256.natToBytesLE 33 i.val ≠ SHA256.natToBytesLE 33 j.val := by
    intro h
    exact hij (Fin.ext (SHA256.natToBytesLE_inj 33 i.val j.val
      (lt_of_lt_of_le i.isLt hpow) (lt_of_lt_of_le j.isLt hpow) h))
  have hwords : SHA256.sha256words (SHA256.natToBytesLE 33 i.val) =
      SHA256.sha256words (SHA256.natToBytesLE 33 j.val) :=
    SHA256.digestToNat_inj (SHA256.bounded_sha256words _) (SHA256.bounded_sha256words _)
      (congrArg Fin.val hfeq)
  exact hclaim _ _ (SHA256.natToBytesLE_lt 33 i.val) (SHA256.natToBytesLE_lt 33 j.val) hne
    (by unfold getConfigHash SHA256.sha256hex; rw [hwords])

/-- C2 amended: `getConfigHash` is the lowercase SHA-256 hex digest of the
raw configuration bytes (64 lowercase hex characters); in the one-byte-edit
scenario the fingerprints differ; and on a poll tick a fingerprint mismatch
runs the reload first, before the dependent jobs of the tick, storing the
fresh fingerprint, while a matching fingerprint never triggers a reload
(distinctness of fingerprints for arbitrary distinct contents is not
universal, by `getConfigHash_not_injective`). -/
theorem getConfigHash_spec :
    (∀ bytes : List Nat, getConfigHash bytes = SHA256.sha256hex bytes ∧
        (getConfigHash bytes).length = 64 ∧
        ∀ c ∈ (getConfigHash bytes).data, c ∈ SHA256.hexAlphabet) ∧
    getConfigHash [1, 2, 3] ≠ getConfigHash [1, 2, 4] ∧
    (∀ (stored fresh : String) (ts oneDay now : Nat), stored ≠ fresh →
        (pollTick stored fresh ts oneDay now).1.head? = some TickEvent.reloadConfig ∧
        (pollTick stored fresh ts oneDay now).2 = fresh) ∧
    (∀ (stored : String) (ts oneDay now : Nat),
        TickEvent.reloadConfig ∉ (pollTick stored stored ts oneDay now).1) := by
  refine ⟨?_, ?_, ?_, ?_⟩
  · intro bytes
    exact ⟨rfl, SHA256.sha256hex_length bytes, SHA256.sha256hex_chars bytes⟩
  · decide
  · intro stored fresh ts oneDay now hne
    have hb : (stored != fresh) = true := bne_iff_ne.mpr hne
    unfold pollTick
    by_cases hq : ts + oneDay * 7 < now <;> simp [hb, hq]
  · intro stored ts oneDay now
    unfold pollTick
    by_cases hq : ts + oneDay * 7 < now <;> simp [hq]

/-- C2 amended, witness: a fingerprint mismatch makes the reload the first
action of the tick. -/
theorem getConfigHash_spec_witness :
    (pollTick "oldhash" "newhash" 0 1 0).1.head? = some TickEvent.reloadConfig :=
  (getConfigHash_spec.2.2.1 "oldhash" "newhash" 0 1 0 (by decide)).1

namespace Queue

theorem validGo_append (keys : List String) :
    ∀ (l1 l2 done : List QEvent),
    validGo keys done (l1 ++ l2) = (validGo keys done l1 && validGo keys (done ++ l1) l2) := by
  intro l1
  induction l1 with
  | nil => intro l2 done; simp [validGo]
  | cons e rest ih =>
    intro l2 done
    rw [List.cons_append, validGo, validGo, ih l2 (done ++ [e]), ← Bool.and_assoc]
    have ha : done ++ [e] ++ rest = done ++ e :: rest := by simp
    rw [ha]

theorem validTrace_snoc (keys : List String) (l : List QEvent) (e : QEvent) :
    validTrace keys (l ++ [e]) = (validTrace keys l && enabled keys l e) := by
  unfold validTrace
  rw [validGo_append keys l [e] []]
  simp [validGo]

theorem validGo_take (keys : List String) (tr : List QEvent)
    (h : validTrace keys tr = true) (n : Nat) : validTrace keys (tr.take n) = true := by
  have hsplit := validGo_append keys (tr.take n) (tr.drop n) []
  rw [List.take_append_drop] at hsplit
  unfold validTrace at h ⊢
  rw [hsplit, Bool.and_eq_true] at h
  exact h.1

theorem prevGo_none (keys : List String) (k : Nat) :
    ∀ m, prevGo keys k m = none → ∀ i, i < m → keyOf keys i ≠ keyOf keys k := by
  intro m
  induction m with
  | zero => intro _ i hi; omega
  | succ m ih =>
    intro h i hi
    rw [prevGo] at h
    by_cases hk : (keyOf keys m == keyOf keys k) = true
    · rw [if_pos hk] at h; exact absurd h (by simp)
    · rw [if_neg hk] at h
      have hne : keyOf keys m ≠ keyOf keys k := by simpa using hk
      rcases Nat.lt_succ_iff_lt_or_eq.mp hi with h2 | h2
      · exact ih h i h2
      · subst h2; exact hne

theorem prevGo_some (keys : List String) (k : Nat) :
    ∀ m j, prevGo keys k m = some j →
      j < m ∧ keyOf keys j = keyOf keys k ∧
        ∀ i, j < i → i < m → keyOf keys i ≠ keyOf keys k := by
  intro m
  induction m with
  | zero => intro j h; rw [prevGo] at h; exact absurd h (by simp)
  | succ m ih =>
    intro j h
    rw [prevGo] at h
    by_cases hk : (keyOf keys m == keyOf keys k) = true
    · rw [if_pos hk] at h
      have hmj : m = j := by injection h
      subst hmj
      refine ⟨Nat.lt_succ_self _, by simpa using hk, ?_⟩
      intro i h1 h2; omega
    · rw [if_neg hk] at h
      obtain ⟨h1, h2, h3⟩ := ih j h
      refine ⟨Nat.lt_succ_of_lt h1, h2, ?_⟩
      intro i hji him
      rcases Nat.lt_succ_iff_lt_or_eq.mp him with hlt | heq
      · exact h3 i hji hlt
      · subst heq; simpa using hk

theorem finished_implies_started (keys : List String) :
    ∀ tr : List QEvent, validTrace keys tr = true → ∀ i, finished tr i → started tr i := by
  intro tr
  induction tr using List.reverseRecOn with
  | nil => intro _ i hi; simp [finished] at hi
  | append_singleton l e ih =>
    intro hv i hi
    rw [validTrace_snoc, Bool.and_eq_true] at hv
    obtain ⟨hvl, hen⟩ := hv
    cases e with
    | start k =>
      have hf : finished l i := by
        rcases List.mem_append.mp hi with h | h
        · exact h
        · simp at h
      exact List.mem_append_left _ (ih hvl i hf)
    | finish k =>
      by_cases hik : i = k
      · subst hik
        simp only [enabled, Bool.and_eq_true, decide_eq_true_eq] at hen
        exact List.mem_append_left _ hen.1
      · have hf : finished l i := by
          rcases List.mem_append.mp hi with h | h
          · exact h
          · exfalso
            simp only [List.mem_singleton, QEvent.finish.injEq] at h
            exact hik h
        exact List.mem_append_left _ (ih hvl i hf)

theorem fifo_invariant (keys : List String) :
    ∀ tr : List QEvent, validTrace keys tr = true →
    ∀ i j, i < j → keyOf keys i = keyOf keys j → started tr j → finished tr i := by
  intro tr
  induction tr using List.reverseRecOn with
  | nil => intro _ i j _ _ hs; simp [started] at hs
  | append_singleton l e ih =>
    intro hv i j hij hkey hs
    rw [validTrace_snoc, Bool.and_eq_true] at hv
    obtain ⟨hvl, hen⟩ := hv
    cases e with
    | finish k =>
      have hs2 : started l j := by
        rcases List.mem_append.mp hs with h | h
        · exact h
        · simp at h
      exact List.mem_append_left _ (ih hvl i j hij hkey hs2)
    | start k =>
      rcases List.mem_append.mp hs with h | h
      · exact List.mem_append_left _ (ih hvl i j hij hkey h)
      · have hjk : j = k := by
          simpa only [List.mem_singleton, QEvent.start.injEq] using h
        subst hjk
        cases hpk : prevSameKey keys j with
        | none => exact absurd hkey (prevGo_none keys j j hpk i hij)
        | some jp =>
          obtain ⟨hjp_lt, hjp_key, hjp_max⟩ := prevGo_some keys j j jp hpk
          have hfin_jp : finished l jp := by
            simp only [enabled] at hen
            rw [hpk] at hen
            simp only [Bool.and_eq_true, decide_eq_true_eq] at hen
            exact hen.2
          rcases Nat.lt_trichotomy i jp with hl | heq | hg
          · have hst_jp : started l jp := finished_implies_started keys l hvl jp hfin_jp
            have hkij : keyOf keys i = keyOf keys jp := hkey.trans hjp_key.symm
            exact List.mem_append_left _ (ih hvl i jp hl hkij hst_jp)
          · subst heq; exact List.mem_append_left _ hfin_jp
          · exact absurd hkey (hjp_max i hg hij)

theorem count_le_one (keys : List String) :
    ∀ tr : List QEvent, validTrace keys tr = true →
    ∀ i, tr.count (QEvent.start i) ≤ 1 ∧ tr.count (QEvent.finish i) ≤ 1 := by
  intro tr
  induction tr using List.reverseRecOn with
  | nil => intro _ i; simp
  | append_singleton l e ih =>
    intro hv i
    rw [validTrace_snoc, Bool.and_eq_true] at hv
    obtain ⟨hvl, hen⟩ := hv
    obtain ⟨ihs, ihf⟩ := ih hvl i
    cases e with
    | start k =>
      constructor
      · by_cases hik : i = k
        · subst hik
          simp only [enabled, Bool.and_eq_true, decide_eq_true_eq] at hen
          have hns : QEvent.start i ∉ l := by simpa using hen.1.2
          have h0 : l.count (QEvent.start i) = 0 := List.count_eq_zero.mpr hns
          rw [List.count_append, h0]
          simp
        · rw [List.count_append]
          have h0 : List.count (QEvent.start i) [QEvent.start k] = 0 :=
            List.count_eq_zero.mpr (by simp [hik])
          omega
      · rw [List.count_append]
        have h0 : List.count (QEvent.finish i) [QEvent.start k] = 0 :=
          List.count_eq_zero.mpr (by simp)
        omega
    | finish k =>
      constructor
      · rw [List.count_append]
        have h0 : List.count (QEvent.start i) [QEvent.finish k] = 0 :=
          List.count_eq_zero.mpr (by simp)
        omega
      · by_cases hik : i = k
        · subst hik
          simp only [enabled, Bool.and_eq_true, decide_eq_true_eq] at hen
          have hnf : QEvent.finish i ∉ l := by simpa using hen.2
          have h0 : l.count (QEvent.finish i) = 0 := List.count_eq_zero.mpr hnf
          rw [List.count_append, h0]
          simp
        · rw [List.count_append]
          have h0 : List.count (QEvent.finish i) [QEvent.finish k] = 0 :=
            List.count_eq_zero.mpr (by simp [hik])
          omega

theorem count_eq_one_of_complete (keys : List String) (tr : List QEvent)
    (hv : validTrace keys tr = true) (hc : ∀ i, i < keys.length → finished tr i) :
    ∀ i, i < keys.length → tr.count (QEvent.start i) = 1 ∧ tr.count (QEvent.finish i) = 1 := by
  intro i hi
  obtain ⟨hs1, hf1⟩ := count_le_one keys tr hv i
  have hf : finished tr i := hc i hi
  have hs : started tr i := finished_implies_started keys tr hv i hf
  have hfc : 0 < tr.count (QEvent.finish i) := List.count_pos_iff.mpr hf
  have hsc : 0 < tr.count (QEvent.start i) := List.count_pos_iff.mpr hs
  omega

theorem mem_serialize_start : ∀ (l : List Nat) (m : Nat),
    QEvent.start m ∈ serialize l ↔ m ∈ l := by
  intro l
  induction l with
  | nil => intro m; simp [serialize]
  | cons k rest ih => intro m; simp [serialize, ih m]

theorem mem_serialize_finish : ∀ (l : List Nat) (m : Nat),
    QEvent.finish m ∈ serialize l ↔ m ∈ l := by
  intro l
  induction l with
  | nil => intro m; simp [serialize]
  | cons k rest ih => intro m; simp [serialize, ih m]

theorem mem_chainUpTo (keys : List String) (b m : Nat) :
    m ∈ chainUpTo keys b ↔ m ≤ b ∧ keyOf keys m = keyOf keys b := by
  simp [chainUpTo, List.mem_filter, List.mem_range, Nat.lt_succ_iff, beq_iff_eq]

theorem pairwise_chainUpTo (keys : List String) (b : Nat) :
    List.Pairwise (· < ·) (chainUpTo keys b) :=
  (List.pairwise_lt_range (b + 1)).sublist (List.filter_sublist _)

theorem chainSerial_valid (keys : List String) :
    ∀ (l : List Nat) (done : List QEvent),
    (∀ k ∈ l, k < keys.length) →
    List.Pairwise (· < ·) l →
    (∀ k ∈ l, QEvent.start k ∉ done) →
    (∀ k ∈ l, QEvent.finish k ∉ done) →
    (∀ k ∈ l, ∀ jp, prevSameKey keys k = some jp → jp ∈ l ∨ QEvent.finish jp ∈ done) →
    validGo keys done (serialize l) = true := by
  intro l
  induction l with
  | nil => intro done _ _ _ _ _; simp [serialize, validGo]
  | cons k rest ih =>
    intro done hlen hpw hns hnf hprev
    have hkmem : k ∈ k :: rest := List.mem_cons_self k rest
    have hrest_gt : ∀ m ∈ rest, k < m := (List.pairwise_cons.mp hpw).1
    have hpw_rest : List.Pairwise (· < ·) rest := (List.pairwise_cons.mp hpw).2
    rw [serialize, validGo, validGo]
    have hA : enabled keys done (QEvent.start k) = true := by
      simp only [enabled, Bool.and_eq_true, decide_eq_true_eq]
      refine ⟨⟨hlen k hkmem, by simpa using hns k hkmem⟩, ?_⟩
      cases hpk : prevSameKey keys k with
      | none => rfl
      | some jp =>
        simp only [decide_eq_true_eq]
        obtain ⟨hjlt, hjkey, _⟩ := prevGo_some keys k k jp hpk
        rcases hprev k hkmem jp hpk with hin | hfin
        · exfalso
          rcases List.mem_cons.mp hin with h | h
          · omega
          · have := hrest_gt jp h; omega
        · exact hfin
    have hB : enabled keys (done ++ [QEvent.start k]) (QEvent.finish k) = true := by
      simp only [enabled, Bool.and_eq_true, decide_eq_true_eq]
      constructor
      · exact List.mem_append_right _ (by simp)
      · have hnm : QEvent.finish k ∉ done ++ [QEvent.start k] := by
          intro hmem
          rcases List.mem_append.mp hmem with h | h
          · exact hnf k hkmem h
          · simp at h
        simpa using hnm
    have hC : validGo keys (done ++ [QEvent.start k] ++ [QEvent.finish k])
        (serialize rest) = true := by
      have hassoc : done ++ [QEvent.start k] ++ [QEvent.finish k] =
          done ++ [QEvent.start k, QEvent.finish k] := by simp
      rw [hassoc]
      apply ih
      · intro m hm; exact hlen m (List.mem_cons_of_mem _ hm)
      · exact hpw_rest
      · intro m hm hmem
        have hkm := hrest_gt m hm
        rcases List.mem_append.mp hmem with h | h
        · exact hns m (List.mem_cons_of_mem _ hm) h
        · rcases List.mem_cons.mp h with h2 | h2
          · have hmk : m = k := by simpa using h2
            omega
          · simp at h2
      · intro m hm hmem
        have hkm := hrest_gt m hm
        rcases List.mem_append.mp hmem with h | h
        · exact hnf m (List.mem_cons_of_mem _ hm) h
        · rcases List.mem_cons.mp h with h2 | h2
          · simp at h2
          · have hmk : m = k := by simpa using h2
            omega
      · intro m hm jp hpk
        rcases hprev m (List.mem_cons_of_mem _ hm) jp hpk with hin | hfin
        · rcases List.mem_cons.mp hin with h2 | h2
          · right
            rw [h2]
            exact List.mem_append_right _ (by simp)
          · left; exact h2
        · right; exact List.mem_append_left _ hfin
    rw [hA, hB, hC]
    rfl

theorem realize_before (keys : List String) (a b : Nat) (ha : a < keys.length)
    (hb : b < keys.length) (hk : keyOf keys a ≠ keyOf keys b) :
    ∃ t : List QEvent, validTrace keys t = true ∧ started t a ∧ started t b ∧
      ∃ n : Nat, finished (t.take n) a ∧ ¬ started (t.take n) b := by
  refine ⟨serialize (chainUpTo keys a) ++ serialize (chainUpTo keys b), ?_, ?_, ?_,
    (serialize (chainUpTo keys a)).length, ?_, ?_⟩
  · unfold validTrace
    rw [validGo_append, Bool.and_eq_true]
    constructor
    · apply chainSerial_valid
      · intro k hkm
        rcases (mem_chainUpTo keys a k).mp hkm with ⟨hle, _⟩
        omega
      · exact pairwise_chainUpTo keys a
      · intro k _ h; simp at h
      · intro k _ h; simp at h
      · intro k hkm jp hpk
        left
        obtain ⟨hjlt, hjkey, _⟩ := prevGo_some keys k k jp hpk
        rcases (mem_chainUpTo keys a k).mp hkm with ⟨hle, hkey⟩
        exact (mem_chainUpTo keys a jp).mpr ⟨by omega, hjkey.trans hkey⟩
    · rw [List.nil_append]
      apply chainSerial_valid
      · intro k hkm
        rcases (mem_chainUpTo keys b k).mp hkm with ⟨hle, _⟩
        omega
      · exact pairwise_chainUpTo keys b
      · intro k hkm h
        rcases (mem_chainUpTo keys b k).mp hkm with ⟨_, hkey⟩
        have hmem := (mem_serialize_start _ k).mp h
        rcases (mem_chainUpTo keys a k).mp hmem with ⟨_, hkey2⟩
        exact hk (hkey2.symm.trans hkey)
      · intro k hkm h
        rcases (mem_chainUpTo keys b k).mp hkm with ⟨_, hkey⟩
        have hmem := (mem_serialize_finish _ k).mp h
        rcases (mem_chainUpTo keys a k).mp hmem with ⟨_, hkey2⟩
        exact hk (hkey2.symm.trans hkey)
      · intro k hkm jp hpk
        left
        obtain ⟨hjlt, hjkey, _⟩ := prevGo_some keys k k jp hpk
        rcases (mem_chainUpTo keys b k).mp hkm with ⟨hle, hkey⟩
        exact (mem_chainUpTo keys b jp).mpr ⟨by omega, hjkey.trans hkey⟩
  · exact List.mem_append_left _
      ((mem_serialize_start _ a).mpr ((mem_chainUpTo keys a a).mpr ⟨le_refl a, rfl⟩))
  · exact List.mem_append_right _
      ((mem_serialize_start _ b).mpr ((mem_chainUpTo keys b b).mpr ⟨le_refl b, rfl⟩))
  · rw [List.take_left]
    exact (mem_serialize_finish _ a).mpr ((mem_chainUpTo keys a a).mpr ⟨le_refl a, rfl⟩)
  · rw [List.take_left]
    intro h
    have hmem := (mem_serialize_start _ b).mp h
    rcases (mem_chainUpTo keys a b).mp hmem with ⟨_, hkey⟩
    exact hk hkey.symm

/-- C1: in every execution the queue can produce, units of work sharing one
key run in submission order, each at most once — whenever a later same-key
unit has started, every earlier same-key unit has already settled, at every
instant — hence never two at a time; in a completed execution each unit runs
exactly once; and units under distinct keys have no ordering imposed: for
every enqueue list and every pair of units with distinct keys, each relative
order of the two is realized by some valid execution in which both run — in
one the first is fully settled at an instant before the second has begun,
and in another the reverse. -/
theorem queueOrdering (keys : List String) (tr : List QEvent)
    (hv : validTrace keys tr = true) :
    (∀ n i j, i < j → keyOf keys i = keyOf keys j →
        started (tr.take n) j → finished (tr.take n) i) ∧
    (∀ n i j, i ≠ j → keyOf keys i = keyOf keys j →
        ¬ (runningIn (tr.take n) i ∧ runningIn (tr.take n) j)) ∧
    (∀ i, tr.count (QEvent.start i) ≤ 1 ∧ tr.count (QEvent.finish i) ≤ 1) ∧
    ((∀ i, i < keys.length → finished tr i) →
        ∀ i, i < keys.length →
          tr.count (QEvent.start i) = 1 ∧ tr.count (QEvent.finish i) = 1) ∧
    (∀ a b : Nat, a < keys.length → b < keys.length → keyOf keys a ≠ keyOf keys b →
      (∃ t : List QEvent, validTrace keys t = true ∧ started t a ∧ started t b ∧
          ∃ n : Nat, finished (t.take n) a ∧ ¬ started (t.take n) b) ∧
      (∃ t : List QEvent, validTrace keys t = true ∧ started t b ∧ started t a ∧
          ∃ n : Nat, finished (t.take n) b ∧ ¬ started (t.take n) a)) := by
  have htake : ∀ n, validTrace keys (tr.take n) = true := validGo_take keys tr hv
  refine ⟨?_, ?_, count_le_one keys tr hv, count_eq_one_of_complete keys tr hv, ?_⟩
  · intro n i j hij hkey hs
    exact fifo_invariant keys (tr.take n) (htake n) i j hij hkey hs
  · rintro n i j hij hkey ⟨⟨hsi, hfi⟩, ⟨hsj, hfj⟩⟩
    rcases Nat.lt_trichotomy i j with hl | heq | hg
    · exact hfi (fifo_invariant keys (tr.take n) (htake n) i j hl hkey hsj)
    · exact hij heq
    · exact hfj (fifo_invariant keys (tr.take n) (htake n) j i hg hkey.symm hsi)
  · intro a b hla hlb hkk
    exact ⟨realize_before keys a b hla hlb hkk, realize_before keys b a hlb hla (Ne.symm hkk)⟩

/-- C1 witness: two units enqueued under one shared key; in the concrete
valid execution the first has settled by the time the prefix in which the
second has started ends. -/
theorem queueOrdering_witness :
    finished ([QEvent.start 0, QEvent.finish 0, QEvent.start 1, QEvent.finish 1].take 3) 0 :=
  (queueOrdering ["a", "a"] [QEvent.start 0, QEvent.finish 0, QEvent.start 1, QEvent.finish 1]
      (by decide)).1 3 0 1 (by decide) (by decide) (by decide)

end Queue

end BoarBot
